import Mathlib

/-!
Shallow embedding of the rule-evaluation core of the check-pull-request
action (src/helper.ts and src/check-pr.ts), together with theorems
settling the specified properties of the Declaration Parser, Ownership
Resolver, Approval Evaluator, Team Rule Evaluator and Mergeable-State
Interpreter.

Strings are modelled by Lean `String`; the JavaScript string operations
used by the source (`split`, `trim`, `startsWith`, `includes`,
`slice(1)`, comment stripping) are embedded as explicit functions on
the character list `String.data`, so that every definition evaluates by
kernel reduction.  JavaScript `\s` is modelled by `Char.isWhitespace`
(space, tab, carriage return, line feed), which agrees with it on the
ASCII content the declaration files consist of.
-/

/-- JS `s.startsWith(c)` for a single-character prefix `c`. -/
def startsWithChar (s : String) (c : Char) : Bool :=
  match s.data with
  | [] => false
  | a :: _ => a == c

/-- JS `file.slice(1)`: drop the first character. -/
def sliceOne (s : String) : String :=
  String.mk (s.data.drop 1)

/-- JS `content.split(/\r\n|\r|\n/)` (helper.ts line 239).  The regex
alternation is leftmost-first, so `"\r\n"` is consumed as one separator. -/
def splitLinesAux : List Char → List Char → List String
  | [], acc => [String.mk acc.reverse]
  | '\r' :: '\n' :: rest, acc => String.mk acc.reverse :: splitLinesAux rest []
  | '\r' :: rest, acc => String.mk acc.reverse :: splitLinesAux rest []
  | '\n' :: rest, acc => String.mk acc.reverse :: splitLinesAux rest []
  | c :: rest, acc => splitLinesAux rest (c :: acc)

def splitLines (s : String) : List String :=
  splitLinesAux s.data []

/-- JS comment stripping on a single line (no newline in `line`): the
`replace` call of helper.ts line 244 removes everything from the first
`#` on. -/
def stripComment (line : String) : String :=
  String.mk (line.data.takeWhile (fun c => !(c == '#')))

/-- JS `String.prototype.trim()`: remove leading and trailing whitespace. -/
def trimWs (s : String) : String :=
  String.mk (((s.data.dropWhile Char.isWhitespace).reverse.dropWhile
    Char.isWhitespace).reverse)

/-- JS `s.split(/\s+/)` (helper.ts line 244).  The state is `some acc`
while a token is being accumulated and `none` inside a separator run.
On the empty string this yields `[""]`, exactly as in JavaScript. -/
def splitWsAux : List Char → Option (List Char) → List String
  | [], some acc => [String.mk acc.reverse]
  | [], none => [""]
  | c :: rest, some acc =>
    if c.isWhitespace then String.mk acc.reverse :: splitWsAux rest none
    else splitWsAux rest (some (c :: acc))
  | c :: rest, none =>
    if c.isWhitespace then splitWsAux rest none
    else splitWsAux rest (some [c])

def splitWhitespace (s : String) : List String :=
  splitWsAux s.data (some [])

/-- The pattern/owner data of one CODEOWNERS declaration line.  The source
(`CodeOwnerEntry` in helper.ts) additionally attaches a gitignore matcher
built from `path`; the parsing claims concern only `path` and `owners`,
and the matcher enters the resolver claims as the opaque per-entry
function of `CodeOwnerEntry` below. -/
structure OwnerLine where
  path : String
  owners : List String
deriving DecidableEq, Repr

/-- JS destructuring of the token array of a line (helper.ts line 244):
strip the comment, trim, split on whitespace runs, and take the first
token as the pattern and the rest as the owners.  `split` never returns
an empty array, so the fallback branch is unreachable. -/
def tokenizeLine (line : String) : OwnerLine :=
  match splitWhitespace (trimWs (stripComment line)) with
  | [] => ⟨"", []⟩
  | path :: owners => ⟨path, owners⟩

/-- The parsing loop of `Helper.getCodeOwners` (helper.ts lines 240-250):
a line is skipped when it is the empty string (JS `!line`) or starts with
`#`; otherwise it is tokenized and appended unless an entry with the same
first token is already present. -/
def parseLines : List String → List OwnerLine → List OwnerLine
  | [], acc => acc
  | line :: rest, acc =>
    if line == "" || startsWithChar line '#' then parseLines rest acc
    else
      let e := tokenizeLine line
      if (acc.find? (fun p => p.path == e.path)).isSome then parseLines rest acc
      else parseLines rest (acc ++ [e])

/-- Parsing of one CODEOWNERS file content: `Helper.getCodeOwners`
(helper.ts lines 239-251) on the first candidate file that resolved; the
accumulated entries are reversed before being returned. -/
def getCodeOwnersParse (content : String) : List OwnerLine :=
  (parseLines (splitLines content) []).reverse

/-- A line is kept by the parser iff it is non-empty and does not start
with `#` (helper.ts line 241). -/
def keepLine (line : String) : Bool :=
  !(line == "" || startsWithChar line '#')

/-- Deduplication by first token keeping the first occurrence, phrased the
way the specification describes it: scan the tokenized kept lines in file
order, dropping a line whose `path` was already seen. -/
def dedupFirstByPath (seen : List OwnerLine) : List OwnerLine → List OwnerLine
  | [] => []
  | e :: rest =>
    if (seen.find? (fun p => p.path == e.path)).isSome then
      dedupFirstByPath seen rest
    else e :: dedupFirstByPath (seen ++ [e]) rest

/-- The `CodeOwnerEntry` interface of helper.ts: a declared pattern, its owner tokens,
and the gitignore matcher built from the pattern (`ignore().add(path)`),
embedded as an opaque boolean function on relative paths. -/
structure CodeOwnerEntry where
  path : String
  owners : List String
  matchFn : String → Bool

/-- JS `file.startsWith('/') ? file.slice(1) : file`
(helper.ts lines 296 and 329). -/
def relPath (file : String) : String :=
  if startsWithChar file '/' then sliceOne file else file

/-- The inner owner loop of `Helper.isActorOwner` (helper.ts lines
337-342): set `isOwner` and break as soon as an owner token starts with
`@` and equals `"@" ++ actor`. -/
def ownerLoop (actor : String) : List String → Bool → Bool
  | [], isOwner => isOwner
  | o :: rest, isOwner =>
    if startsWithChar o '@' && o == "@" ++ actor then true
    else ownerLoop actor rest isOwner

/-- The entry loop of `Helper.isActorOwner` for one file (helper.ts lines
331-344).  `none` models the early `return false` taken when a matching
entry has an empty owner list; `some isOwner` is the value of the flag
after the loop. -/
def entryLoop (actor rel : String) : List CodeOwnerEntry → Bool → Option Bool
  | [], isOwner => some isOwner
  | e :: rest, isOwner =>
    if e.matchFn rel then
      if e.owners.length == 0 then none
      else entryLoop actor rel rest (ownerLoop actor e.owners isOwner)
    else entryLoop actor rel rest isOwner

/-- The file loop of `Helper.isActorOwner` (helper.ts lines 328-351):
each file must come out of the entry loop with `isOwner = true`. -/
def filesLoop (actor : String) (entries : List CodeOwnerEntry) : List String → Bool
  | [] => true
  | file :: rest =>
    match entryLoop actor (relPath file) entries false with
    | none => false
    | some isOwner => if isOwner then filesLoop actor entries rest else false

/-- The function `Helper.isActorOwner` (helper.ts lines 318-353), the `isSoleOwner`
operation of the specification: fail closed when no entry lists
`"@" ++ actor`, otherwise run the file loop. -/
def isActorOwner (actor : String) (files : List String)
    (entries : List CodeOwnerEntry) : Bool :=
  if (entries.find? (fun e => e.owners.contains ("@" ++ actor))).isSome then
    filesLoop actor entries files
  else false

/-- One step of the owner-collection loop of `Helper.getPullCodeOwners`
(helper.ts lines 299-311): a token containing `/` is a team and is
skipped, a token starting with `@` is appended unless already present,
anything else is skipped. -/
def pushOwner (acc : List String) (owner : String) : List String :=
  if owner.data.contains '/' then acc
  else if startsWithChar owner '@' then
    if (acc.find? (fun o => o == owner)).isSome then acc else acc ++ [owner]
  else acc

/-- The entry loop of `Helper.getPullCodeOwners` for one file (helper.ts
lines 297-313): every matching entry contributes all of its owner tokens. -/
def collectFromEntries (entries : List CodeOwnerEntry) (rel : String)
    (acc : List String) : List String :=
  entries.foldl
    (fun a e => if e.matchFn rel then e.owners.foldl pushOwner a else a) acc

/-- The function `Helper.getPullCodeOwners` (helper.ts lines 290-316), the
`collectOwners` operation of the specification. -/
def getPullCodeOwners (files : List String) (entries : List CodeOwnerEntry) :
    List String :=
  files.foldl (fun acc file => collectFromEntries entries (relPath file) acc) []

/-- The owner accumulator invariant of `Helper.getPullCodeOwners`: no
duplicates, and every collected token starts with `@` and contains no
`/`. -/
def GoodOwners (acc : List String) : Prop :=
  acc.Nodup ∧ ∀ o ∈ acc, startsWithChar o '@' = true ∧ o.data.contains '/' = false

/-- A pull-request review as `Helper.isReviewed` consumes it: the optional
user login (`review.user?.login`) and the review state. -/
structure Review where
  user : Option String
  state : String
deriving DecidableEq, Repr

/-- JS string interpolation of `review.user?.login`: an absent login
interpolates as the string `"undefined"` (helper.ts lines 365, 369-370). -/
def reviewerStr (r : Review) : String :=
  match r.user with
  | some l => l
  | none => "undefined"

/-- JS `prUser !== reviewer` negated: a string never equals `undefined`,
so an absent login makes the comparison `false` (helper.ts line 370). -/
def reviewerIsPrUser (prUser : String) (r : Review) : Bool :=
  match r.user with
  | some l => prUser == l
  | none => false

/-- The review loop of `Helper.isReviewed` (helper.ts lines 364-375). -/
def isReviewedList (reviews : List Review) (owners : List String)
    (prUser : String) : Bool :=
  reviews.any (fun review =>
    review.state == "APPROVED" &&
      (owners.isEmpty ||
        ((owners.length == 1) && owners.contains ("@" ++ reviewerStr review)) ||
        (owners.contains ("@" ++ reviewerStr review) &&
          !(reviewerIsPrUser prUser review))))

/-- The function `Helper.isReviewed` (helper.ts lines 355-381), the `isApproved`
operation of the specification, with the fetched review list made an
explicit argument (`none` models a `null` API response). -/
def isReviewed (reviews : Option (List Review)) (owners : List String)
    (prUser : String) : Bool :=
  match reviews with
  | none => false
  | some rs => if rs.length > 0 then isReviewedList rs owners prUser else false

/-- The `CodeTeamEntry` interface of helper.ts: a label and its user tokens. -/
structure CodeTeamEntry where
  label : String
  users : List String
deriving DecidableEq, Repr

/-- Outcome of the team-rule loop of `checkPullRequest`: success, or the
identity of the rule that failed (thrown error in the source). -/
inductive TeamCheckResult where
  | ok : TeamCheckResult
  | missingLabel (label : String) : TeamCheckResult
  | notApproved (label : String) (users : List String) : TeamCheckResult
deriving DecidableEq, Repr

/-- The CODETEAMS loop of `checkPullRequest` (check-pr.ts lines 108-141):
for each entry, fail when its label is absent from the pull request's
labels; otherwise pass the sentinel author `"skipPrUserTest"` when the
entry lists exactly one user and the real author otherwise, and fail when
the approval check rejects. -/
def checkTeamEntries (entries : List CodeTeamEntry) (labels : List String)
    (prUser : String) (reviews : Option (List Review)) : TeamCheckResult :=
  match entries with
  | [] => .ok
  | entry :: rest =>
    if (labels.find? (fun e => e == entry.label)).isSome then
      let pullUser := if entry.users.length != 1 then prUser else "skipPrUserTest"
      if isReviewed reviews entry.users pullUser then
        checkTeamEntries rest labels prUser reviews
      else .notApproved entry.label entry.users
    else .missingLabel entry.label

/-- The switch over `pr.mergeable_state` of `checkPullRequest` (check-pr.ts
lines 157-182). -/
def stateMessage (mergeableState : String) : String :=
  match mergeableState with
  | "clean" => "is in a clean state"
  | "has_hooks" => "has a passing commit status with pre-receive hooks"
  | "unstable" => "has a non-passing commit status (unstable)"
  | "behind" => "has out of date head ref"
  | "blocked" => "is blocked"
  | "dirty" => "is dirty, the merge commit cannot be cleanly created"
  | "draft" => "is blocked due to the pull request being a draft"
  | _ => "is in a undetermined state"

/-- Outcome of the mergeable-state block: success, or the distinguishing
part of the thrown error message. -/
inductive MergeOutcome where
  | success : MergeOutcome
  | failure (message : String) : MergeOutcome
deriving DecidableEq, Repr

/-- The mergeable-state block of `checkPullRequest` (check-pr.ts lines
148-191): merged wins outright; a `null` mergeable flag is indeterminate;
a mergeable pull request succeeds iff its state string is in the allow
list, failing with the fixed phrase for that state; a non-mergeable pull
request fails outright. -/
def interpretMergeableState (merged : Bool) (mergeable : Option Bool)
    (mergeableState : String) (requiredMergeableState : List String) :
    MergeOutcome :=
  if merged then .success
  else
    match mergeable with
    | none => .failure "the mergable state is unknown"
    | some true =>
      if requiredMergeableState.contains mergeableState then .success
      else .failure (stateMessage mergeableState)
    | some false => .failure "is not mergable"

/-- The inner owner loop computes the disjunction of the accumulator with
an existence test over the entry's owner tokens. -/
theorem ownerLoop_eq (actor : String) (os : List String) (b : Bool) :
    ownerLoop actor os b =
      (b || os.any (fun o => startsWithChar o '@' && o == "@" ++ actor)) := by
  induction os generalizing b with
  | nil => simp [ownerLoop]
  | cons o rest ih =>
    simp only [ownerLoop, List.any_cons]
    split
    · next h => simp [h]
    · next h => simp [h, ih]

/-- The entry loop for one file returns `none` exactly when some matching
entry has an empty owner list, and otherwise reports whether the actor
occurs among the owners of some matching entry. -/
theorem entryLoop_spec (actor rel : String) (es : List CodeOwnerEntry) (b : Bool) :
    entryLoop actor rel es b =
      (if es.any (fun e => e.matchFn rel && e.owners.length == 0) then none
       else some (b || es.any (fun e => e.matchFn rel &&
         e.owners.any (fun o => startsWithChar o '@' && o == "@" ++ actor)))) := by
  induction es generalizing b with
  | nil => simp [entryLoop]
  | cons e rest ih =>
    simp only [entryLoop, List.any_cons]
    by_cases hm : e.matchFn rel
    · by_cases h0 : (e.owners.length == 0) = true
      · simp [hm, h0]
      · simp only [hm, h0, if_true, if_false, Bool.true_and, Bool.false_or,
          Bool.not_eq_true] at *
        rw [ih, ownerLoop_eq]
        simp [h0, Bool.or_assoc]
    · simp [hm, ih]

/-- The file loop demands, for every file, that no matching entry is
ownerless and that the actor occurs among some matching entry's owners. -/
theorem filesLoop_eq (actor : String) (entries : List CodeOwnerEntry)
    (files : List String) :
    filesLoop actor entries files = files.all (fun file =>
      !(entries.any (fun e => e.matchFn (relPath file) && e.owners.length == 0)) &&
      entries.any (fun e => e.matchFn (relPath file) &&
        e.owners.any (fun o => startsWithChar o '@' && o == "@" ++ actor))) := by
  induction files with
  | nil => simp [filesLoop]
  | cons file rest ih =>
    simp only [filesLoop, List.all_cons, entryLoop_spec]
    by_cases hempty :
        (entries.any (fun e => e.matchFn (relPath file) && e.owners.length == 0)) = true
    · simp [hempty]
    · by_cases hown : (entries.any (fun e => e.matchFn (relPath file) &&
          e.owners.any (fun o => startsWithChar o '@' && o == "@" ++ actor))) = true
      · simp [hempty, hown, ih]
      · simp [hempty, hown]

/-- Claim C1 counterexample: with a first matching entry listing the actor
and a later matching entry listing zero owners, `isActorOwner` returns
`false`; removing the later ownerless entry flips the result to `true`, so
the later matching entry with zero owners does by itself make the result
`false`, contrary to the claim that only the first matching entry is
consulted for the unowned test. -/
theorem isActorOwner_first_match_refuted :
    isActorOwner "alice" ["/f"]
      [⟨"a", ["@alice"], fun _ => true⟩, ⟨"b", [], fun _ => true⟩] = false ∧
    isActorOwner "alice" ["/f"] [⟨"a", ["@alice"], fun _ => true⟩] = true :=
  ⟨by decide, by decide⟩

/-- Claim C1 (amended): for an actor listed by at least one entry,
`isActorOwner` accepts exactly when every changed file has no matching
entry with zero owners — the unowned test, like the actor-presence test,
scans all matching entries, not only the first — and the actor occurs
among the owners of some matching entry. -/
theorem isActorOwner_allMatching_unowned (actor : String) (files : List String)
    (entries : List CodeOwnerEntry)
    (h : (entries.find? (fun e => e.owners.contains ("@" ++ actor))).isSome = true) :
    isActorOwner actor files entries = files.all (fun file =>
      !(entries.any (fun e => e.matchFn (relPath file) && e.owners.length == 0)) &&
      entries.any (fun e => e.matchFn (relPath file) &&
        e.owners.any (fun o => startsWithChar o '@' && o == "@" ++ actor))) := by
  unfold isActorOwner
  rw [if_pos h]
  exact filesLoop_eq actor entries files

theorem isActorOwner_allMatching_unowned_witness :
    (([⟨"a", ["@alice"], fun _ => true⟩] : List CodeOwnerEntry).find?
      (fun e => e.owners.contains ("@" ++ "alice"))).isSome = true ∧
    isActorOwner "alice" ["/f"] [⟨"a", ["@alice"], fun _ => true⟩] =
      (["/f"].all (fun file =>
        !(([⟨"a", ["@alice"], fun _ => true⟩] : List CodeOwnerEntry).any
          (fun e => e.matchFn (relPath file) && e.owners.length == 0)) &&
        ([⟨"a", ["@alice"], fun _ => true⟩] : List CodeOwnerEntry).any
          (fun e => e.matchFn (relPath file) &&
            e.owners.any (fun o => startsWithChar o '@' && o == "@" ++ "alice")))) :=
  ⟨by decide, isActorOwner_allMatching_unowned "alice" ["/f"]
    [⟨"a", ["@alice"], fun _ => true⟩] (by decide)⟩

/-- Claim C2 counterexample: with an empty changed-files list and no entry
listing the actor, `isActorOwner` returns `false`, not `true`: the
fail-closed test for the actor being listed anywhere runs before the
vacuous file loop. -/
theorem isActorOwner_empty_files_refuted :
    isActorOwner "alice" [] ([] : List CodeOwnerEntry) = false := by decide

/-- Claim C2 (amended): on an empty changed-files list `isActorOwner`
returns `true` exactly when some entry lists `"@" ++ actor`; when no entry
does, it fails closed with `false` even though there are no files. -/
theorem isActorOwner_empty_files_amended (actor : String)
    (entries : List CodeOwnerEntry) :
    isActorOwner actor [] entries =
      (entries.find? (fun e => e.owners.contains ("@" ++ actor))).isSome := by
  unfold isActorOwner
  by_cases h : (entries.find? (fun e => e.owners.contains ("@" ++ actor))).isSome = true
  · rw [if_pos h, h]
    simp [filesLoop]
  · rw [if_neg h]
    rw [Bool.not_eq_true] at h
    rw [h]

/-- A list has length one and contains `x` exactly when it is `[x]`. -/
theorem length_one_contains_iff (l : List String) (x : String) :
    (((l.length == 1) && l.contains x) = true) ↔ l = [x] := by
  cases l with
  | nil => simp
  | cons a t =>
    cases t with
    | nil => simp [List.contains_cons, eq_comm]
    | cons b t2 => simp

/-- Membership form of `List.contains` on strings. -/
theorem contains_iff_mem (l : List String) (x : String) :
    l.contains x = true ↔ x ∈ l := by
  rw [List.contains_eq_any_beq, List.any_eq_true]
  constructor
  · rintro ⟨y, hy, hxy⟩
    rw [beq_iff_eq] at hxy
    exact hxy ▸ hy
  · intro hx
    exact ⟨x, hx, by simp⟩

/-- The per-review condition of `Helper.isReviewed` unfolded to a
propositional disjunction of the three approval modes. -/
theorem reviewCond_iff (owners : List String) (prUser : String) (r : Review) :
    ((r.state == "APPROVED" &&
      (owners.isEmpty ||
        ((owners.length == 1) && owners.contains ("@" ++ reviewerStr r)) ||
        (owners.contains ("@" ++ reviewerStr r) &&
          !(reviewerIsPrUser prUser r)))) = true) ↔
    (r.state = "APPROVED" ∧
      (owners = [] ∨ owners = ["@" ++ reviewerStr r] ∨
        (("@" ++ reviewerStr r) ∈ owners ∧ reviewerIsPrUser prUser r = false))) := by
  rw [Bool.and_eq_true, Bool.or_eq_true, Bool.or_eq_true, beq_iff_eq,
    length_one_contains_iff, Bool.and_eq_true, List.isEmpty_iff,
    Bool.not_eq_true', contains_iff_mem, or_assoc]

/-- Claim C3: `isReviewed` accepts exactly when some review in the list is
`APPROVED` and either the owner list is empty, or it is the singleton of
the reviewer's handle (self-approval permitted), or the reviewer's handle
is among the owners and the reviewer is not the pull-request author; a
`null` or empty review list is rejected; the sole-owner self-approval
scenario is accepted and the two-owner author scenario rejected. -/
theorem isReviewed_spec :
    (∀ (reviews : Option (List Review)) (owners : List String) (prUser : String),
      isReviewed reviews owners prUser = true ↔
        ∃ rs, reviews = some rs ∧ ∃ r ∈ rs, r.state = "APPROVED" ∧
          (owners = [] ∨ owners = ["@" ++ reviewerStr r] ∨
            (("@" ++ reviewerStr r) ∈ owners ∧ reviewerIsPrUser prUser r = false))) ∧
    (∀ owners prUser, isReviewed none owners prUser = false) ∧
    (∀ owners prUser, isReviewed (some []) owners prUser = false) ∧
    isReviewed (some [⟨some "alice", "APPROVED"⟩]) ["@alice"] "alice" = true ∧
    isReviewed (some [⟨some "alice", "APPROVED"⟩]) ["@alice", "@bob"] "alice" = false := by
  refine ⟨?_, fun _ _ => rfl, fun _ _ => rfl, by decide, by decide⟩
  intro reviews owners prUser
  cases reviews with
  | none => simp [isReviewed]
  | some rs =>
    cases rs with
    | nil => simp [isReviewed]
    | cons a t =>
      simp only [isReviewed, List.length_cons, Option.some.injEq,
        exists_eq_left']
      rw [if_pos (Nat.succ_pos t.length)]
      rw [isReviewedList, List.any_eq_true]
      constructor
      · rintro ⟨r, hr, hcond⟩
        exact ⟨r, hr, (reviewCond_iff owners prUser r).mp hcond⟩
      · rintro ⟨r, hr, hcond⟩
        exact ⟨r, hr, (reviewCond_iff owners prUser r).mpr hcond⟩

/-- Claim C10: with an empty owner list, any `APPROVED` review in the list
satisfies `isReviewed`, with no test of the reviewer's identity: in
particular a review whose user login is absent, or one written by the
pull-request author, qualifies. -/
theorem isReviewed_anyApproval (reviews : List Review) (r : Review)
    (hr : r ∈ reviews) (hs : r.state = "APPROVED") (prUser : String) :
    isReviewed (some reviews) [] prUser = true := by
  cases reviews with
  | nil => cases hr
  | cons a t =>
    have h : isReviewedList (a :: t) [] prUser = true := by
      rw [isReviewedList, List.any_eq_true]
      exact ⟨r, hr, by simp [hs]⟩
    simp [isReviewed, h]

theorem isReviewed_anyApproval_witness :
    ((⟨none, "APPROVED"⟩ : Review) ∈ [(⟨none, "APPROVED"⟩ : Review)]) ∧
    (⟨none, "APPROVED"⟩ : Review).state = "APPROVED" ∧
    isReviewed (some [⟨none, "APPROVED"⟩]) [] "alice" = true :=
  ⟨by decide, rfl,
    isReviewed_anyApproval [⟨none, "APPROVED"⟩] ⟨none, "APPROVED"⟩
      (by decide) rfl "alice"⟩

/-- Claim C4: the team loop fails immediately on the first entry whose
label is missing from the pull request's labels, identifying that rule;
for a present label the sentinel author `"skipPrUserTest"` is used when
the entry lists exactly one user (disabling the author exclusion) and the
real author otherwise; a rejected approval check fails the whole loop
identifying that rule; and the security/alice-bob/carol scenario passes. -/
theorem checkTeamEntries_spec :
    (∀ (entry : CodeTeamEntry) (rest : List CodeTeamEntry)
       (labels : List String) (prUser : String) (reviews : Option (List Review)),
      (labels.find? (fun e => e == entry.label)).isSome = false →
      checkTeamEntries (entry :: rest) labels prUser reviews =
        .missingLabel entry.label) ∧
    (∀ entry rest labels prUser reviews,
      (labels.find? (fun e => e == entry.label)).isSome = true →
      checkTeamEntries (entry :: rest) labels prUser reviews =
        (if isReviewed reviews entry.users
            (if entry.users.length != 1 then prUser else "skipPrUserTest") then
          checkTeamEntries rest labels prUser reviews
        else .notApproved entry.label entry.users)) ∧
    (∀ entry rest labels prUser reviews, entry.users.length = 1 →
      (labels.find? (fun e => e == entry.label)).isSome = true →
      checkTeamEntries (entry :: rest) labels prUser reviews =
        (if isReviewed reviews entry.users "skipPrUserTest" then
          checkTeamEntries rest labels prUser reviews
        else .notApproved entry.label entry.users)) ∧
    checkTeamEntries [⟨"security", ["@alice", "@bob"]⟩] ["security"] "carol"
      (some [⟨some "bob", "APPROVED"⟩]) = .ok := by
  refine ⟨?_, ?_, ?_, by decide⟩
  · intro entry rest labels prUser reviews h
    rw [checkTeamEntries, if_neg (by rw [h]; exact Bool.false_ne_true)]
  · intro entry rest labels prUser reviews h
    rw [checkTeamEntries, if_pos h]
  · intro entry rest labels prUser reviews hlen h
    rw [checkTeamEntries, if_pos h]
    simp [hlen]

/-- Claim C5: the mergeable-state block applies its cases in priority
order — merged wins regardless of the allow list; an unknown mergeable
flag fails; a mergeable pull request succeeds exactly when its state
string is in the allow list and otherwise fails with the fixed phrase for
that state, unrecognized states getting the default phrase but still
being matched against the allow list; a non-mergeable pull request fails
— and the `"unstable"` scenario succeeds while the `"dirty"` scenario
fails with the dirty phrase. -/
theorem interpretMergeableState_spec :
    (∀ mergeable st allowed,
      interpretMergeableState true mergeable st allowed = .success) ∧
    (∀ st allowed, interpretMergeableState false none st allowed =
      .failure "the mergable state is unknown") ∧
    (∀ st allowed, allowed.contains st = true →
      interpretMergeableState false (some true) st allowed = .success) ∧
    (∀ st allowed, allowed.contains st = false →
      interpretMergeableState false (some true) st allowed =
        .failure (stateMessage st)) ∧
    (∀ st allowed, interpretMergeableState false (some false) st allowed =
      .failure "is not mergable") ∧
    stateMessage "weird-state" = "is in a undetermined state" ∧
    interpretMergeableState false (some true) "weird-state" ["weird-state"] =
      .success ∧
    interpretMergeableState false (some true) "unstable"
      ["clean", "has_hooks", "unstable"] = .success ∧
    interpretMergeableState false (some true) "dirty" ["clean"] =
      .failure "is dirty, the merge commit cannot be cleanly created" := by
  refine ⟨fun _ _ _ => rfl, fun _ _ => rfl, ?_, ?_, fun _ _ => rfl, rfl,
    by decide, by decide, by decide⟩
  · intro st allowed h
    show (if allowed.contains st = true then MergeOutcome.success
      else MergeOutcome.failure (stateMessage st)) = MergeOutcome.success
    rw [if_pos h]
  · intro st allowed h
    show (if allowed.contains st = true then MergeOutcome.success
      else MergeOutcome.failure (stateMessage st)) =
        MergeOutcome.failure (stateMessage st)
    rw [if_neg (by rw [h]; exact Bool.false_ne_true)]

/-- The parsing loop equals the specification pipeline: filter the kept
lines, tokenize them, deduplicate by first token keeping the first
occurrence, all relative to the entries already accumulated. -/
theorem parseLines_eq_dedup (ls : List String) (acc : List OwnerLine) :
    parseLines ls acc =
      acc ++ dedupFirstByPath acc ((ls.filter keepLine).map tokenizeLine) := by
  induction ls generalizing acc with
  | nil => simp [parseLines, dedupFirstByPath]
  | cons line rest ih =>
    by_cases hc : (line == "" || startsWithChar line '#') = true
    · have hk : ¬ keepLine line = true := by
        rw [keepLine, hc]
        decide
      rw [parseLines, if_pos hc, ih, List.filter_cons_of_neg hk]
    · have hcf : (line == "" || startsWithChar line '#') = false := by
        rw [Bool.not_eq_true] at hc
        exact hc
      have hk : keepLine line = true := by
        rw [keepLine, hcf]
        rfl
      by_cases hdup :
          ((acc.find? (fun p => p.path == (tokenizeLine line).path)).isSome) = true
      · rw [parseLines, if_neg hc]
        rw [if_pos hdup]
        rw [ih, List.filter_cons_of_pos hk, List.map_cons, dedupFirstByPath,
          if_pos hdup]
      · rw [parseLines, if_neg hc]
        rw [if_neg hdup]
        rw [ih, List.filter_cons_of_pos hk, List.map_cons, dedupFirstByPath,
          if_neg hdup]
        rw [List.append_assoc, List.singleton_append]

/-- Claim C6: parsing tokenizes each kept line on whitespace runs into a
first token and the remaining tokens, deduplicates by first token keeping
the first occurrence in file order, and returns the entries in reversed
file order; on the two-line scenario file the entries come out in
evaluation order `/src/` then `*.md`. -/
theorem getCodeOwnersParse_spec :
    (∀ content, getCodeOwnersParse content =
      (dedupFirstByPath []
        (((splitLines content).filter keepLine).map tokenizeLine)).reverse) ∧
    getCodeOwnersParse "*.md @doc-owner\n/src/ @core-owner\n" =
      [⟨"/src/", ["@core-owner"]⟩, ⟨"*.md", ["@doc-owner"]⟩] := by
  refine ⟨?_, by decide⟩
  intro content
  rw [getCodeOwnersParse, parseLines_eq_dedup, List.nil_append]

/-- Claim C9: parsing the same declaration text twice yields structurally
equal entry sequences — the parser is a pure function of the text. -/
theorem getCodeOwnersParse_deterministic (content : String) :
    getCodeOwnersParse content = getCodeOwnersParse content := rfl

/-- Concatenation of the underlying character lists of two strings. -/
theorem data_append (s t : String) : (s ++ t).data = s.data ++ t.data := by
  cases s
  cases t
  rfl

/-- Walking `takeWhile` through a prefix all of whose characters satisfy
the predicate. -/
theorem takeWhile_append_all (p : Char → Bool) (l r : List Char)
    (h : ∀ c ∈ l, p c = true) :
    (l ++ r).takeWhile p = l ++ r.takeWhile p := by
  induction l with
  | nil => simp
  | cons a as ih =>
    rw [List.cons_append, List.takeWhile_cons, h a (by simp),
      ih (fun c hc => h c (by simp [hc]))]
    simp

/-- Claim C7 counterexample: a line consisting only of whitespace, and a
line of whitespace followed by a `#` comment, are *not* discarded — the
parser tests the raw line for emptiness before any trimming, so each of
these lines produces the entry with empty pattern and no owners. -/
theorem parse_blank_line_refuted :
    getCodeOwnersParse "   " = [⟨"", []⟩] ∧
    getCodeOwnersParse " # note" = [⟨"", []⟩] :=
  ⟨by decide, by decide⟩

/-- Claim C7 (amended): a line is discarded exactly when it is the empty
string before any trimming or starts with `#`; on a kept line everything
from the first `#` on is stripped before trimming and tokenizing; a kept
line of pure whitespace survives and yields the entry with empty pattern
and no owners. -/
theorem parse_line_handling_amended :
    (∀ (line : String) (rest : List String) (acc : List OwnerLine),
      (line == "" || startsWithChar line '#') = true →
      parseLines (line :: rest) acc = parseLines rest acc) ∧
    (∀ line rest acc,
      (line == "" || startsWithChar line '#') = false →
      parseLines (line :: rest) acc =
        (if ((acc.find? (fun p => p.path == (tokenizeLine line).path)).isSome)
         then parseLines rest acc
         else parseLines rest (acc ++ [tokenizeLine line]))) ∧
    (∀ s t : String, (∀ c ∈ s.data, (c == '#') = false) →
      stripComment (s ++ "#" ++ t) = s) ∧
    getCodeOwnersParse " " = [⟨"", []⟩] := by
  refine ⟨?_, ?_, ?_, by decide⟩
  · intro line rest acc h
    rw [parseLines, if_pos h]
  · intro line rest acc h
    rw [parseLines, if_neg (by rw [h]; exact Bool.false_ne_true)]
  · intro s t h
    rw [stripComment, data_append, data_append]
    rw [List.append_assoc]
    rw [takeWhile_append_all _ _ _
      (fun c hc => by rw [Bool.not_eq_true']; exact h c hc)]
    have h2 : List.takeWhile (fun c => !(c == '#')) ("#".data ++ t.data) = [] := rfl
    rw [h2, List.append_nil]

/-- One `pushOwner` step preserves the accumulator invariant. -/
theorem pushOwner_good (acc : List String) (o : String) (h : GoodOwners acc) :
    GoodOwners (pushOwner acc o) := by
  by_cases h1 : o.data.contains '/' = true
  · rw [pushOwner, if_pos h1]
    exact h
  · rw [Bool.not_eq_true] at h1
    by_cases h2 : startsWithChar o '@' = true
    · by_cases h3 : (acc.find? (fun x => x == o)).isSome = true
      · rw [pushOwner, if_neg (by rw [h1]; exact Bool.false_ne_true), if_pos h2,
          if_pos h3]
        exact h
      · rw [pushOwner, if_neg (by rw [h1]; exact Bool.false_ne_true), if_pos h2,
          if_neg h3]
        have ho : o ∉ acc := by
          intro hmem
          exact h3 (by
            rw [List.find?_isSome]
            exact ⟨o, hmem, by simp⟩)
        obtain ⟨hnd, hall⟩ := h
        refine ⟨?_, ?_⟩
        · rw [List.nodup_append]
          exact ⟨hnd, List.nodup_singleton o, by
            intro x hx hxo
            rw [List.mem_singleton] at hxo
            exact ho (hxo ▸ hx)⟩
        · intro x hx
          rw [List.mem_append, List.mem_singleton] at hx
          cases hx with
          | inl hx => exact hall x hx
          | inr hx => exact hx ▸ ⟨h2, h1⟩
    · rw [pushOwner, if_neg (by rw [h1]; exact Bool.false_ne_true), if_neg h2]
      exact h

/-- Folding `pushOwner` over an owner token list preserves the invariant. -/
theorem foldl_pushOwner_good (os : List String) (acc : List String)
    (h : GoodOwners acc) : GoodOwners (os.foldl pushOwner acc) := by
  induction os generalizing acc with
  | nil => exact h
  | cons o rest ih => exact ih _ (pushOwner_good _ _ h)

/-- The per-file entry fold preserves the invariant. -/
theorem collectFromEntries_good (entries : List CodeOwnerEntry) (rel : String)
    (acc : List String) (h : GoodOwners acc) :
    GoodOwners (collectFromEntries entries rel acc) := by
  rw [collectFromEntries]
  induction entries generalizing acc with
  | nil => exact h
  | cons e rest ih =>
    rw [List.foldl_cons]
    by_cases hm : e.matchFn rel = true
    · rw [if_pos hm]
      exact ih _ (foldl_pushOwner_good _ _ h)
    · rw [if_neg hm]
      exact ih _ h

/-- The collected owner list satisfies the invariant. -/
theorem getPullCodeOwners_good (files : List String)
    (entries : List CodeOwnerEntry) : GoodOwners (getPullCodeOwners files entries) := by
  rw [getPullCodeOwners]
  have h : ∀ (fs : List String) (acc : List String), GoodOwners acc →
      GoodOwners (fs.foldl
        (fun acc file => collectFromEntries entries (relPath file) acc) acc) := by
    intro fs
    induction fs with
    | nil => exact fun _ h => h
    | cons f rest ih =>
      intro acc hacc
      rw [List.foldl_cons]
      exact ih _ (collectFromEntries_good entries (relPath f) acc hacc)
  exact h files [] ⟨List.nodup_nil, by intro o ho; cases ho⟩

/-- Claim C8: every element of the list returned by `getPullCodeOwners`
starts with `@`, contains no `/`, and appears exactly once: team
references and tokens without the `@` prefix are never included, and no
owner is duplicated. -/
theorem getPullCodeOwners_valid (files : List String)
    (entries : List CodeOwnerEntry) :
    (getPullCodeOwners files entries).Nodup ∧
    ∀ o ∈ getPullCodeOwners files entries,
      startsWithChar o '@' = true ∧ o.data.contains '/' = false ∧
      (getPullCodeOwners files entries).count o = 1 := by
  obtain ⟨hnd, hall⟩ := getPullCodeOwners_good files entries
  refine ⟨hnd, ?_⟩
  intro o ho
  obtain ⟨h1, h2⟩ := hall o ho
  exact ⟨h1, h2, List.count_eq_one_of_mem hnd ho⟩
